import Mathlib

/-!
Verification of the NIM-LLab model-downloader utilities.

Shallow embedding of the pure string/path logic of
`lib/model_downloader.py` and `lib/utility.py`: filename grouping of
multi-part GGUF files, required-config location, directory-layout
derivation, the interactive selection-menu loops, the local artifact
scanner, and the log-based readiness probe.
-/

namespace NimLLab

open scoped List

/-! ## Python string primitives -/

/-- Python `str.split(sep)` on a single-character separator, over char
lists (accumulator holds the current segment reversed). -/
def pySplitAux (sep : Char) : List Char → List Char → List (List Char)
  | [], acc => [acc.reverse]
  | c :: cs, acc =>
    if c = sep then acc.reverse :: pySplitAux sep cs []
    else pySplitAux sep cs (c :: acc)

/-- Python `str.split(sep)` for a one-character separator. -/
def pySplit (sep : Char) (cs : List Char) : List (List Char) :=
  pySplitAux sep cs []

/-- Embedding of `os.path.basename` (POSIX): the part of the path after the last `/`. -/
def basename (s : String) : String :=
  String.mk ((pySplit '/' s.data).getLastD [])

/-- Does `l` start with `pat`? -/
def startsWithL : List Char → List Char → Bool
  | [], _ => true
  | _ :: _, [] => false
  | p :: ps, c :: cs => p == c && startsWithL ps cs

/-- Python `s.endswith(suffix)`. -/
def pyEndsWith (s suffix : String) : Bool :=
  startsWithL suffix.data.reverse s.data.reverse

/-- The whitespace characters Python `str.strip()` removes (ASCII). -/
def isPySpace (c : Char) : Bool :=
  c == ' ' || c == '\t' || c == '\n' || c == '\r' || c == '\x0b' || c == '\x0c'

/-- Python `str.strip()`: drop whitespace from both ends. -/
def pyStrip (l : List Char) : List Char :=
  ((l.dropWhile isPySpace).reverse.dropWhile isPySpace).reverse

/-- Python `str.strip()` on strings. -/
def pyStripS (s : String) : String := String.mk (pyStrip s.data)

/-- Python `str.lower()` (ASCII case folding, as `Char.toLower`). -/
def pyLower (s : String) : String := String.mk (s.data.map Char.toLower)

/-- Lexicographic (code-point) comparison of char lists, Python's string
`<=` ordering. -/
def charsLe : List Char → List Char → Bool
  | [], _ => true
  | _ :: _, [] => false
  | a :: as, b :: bs =>
    if a < b then true
    else if b < a then false
    else charsLe as bs

/-- Python string `<=` (code-point lexicographic). -/
def strLe (a b : String) : Bool := charsLe a.data b.data

/-- Insert into a `strLe`-sorted list keeping order (stable). -/
def insertSorted (x : String) : List String → List String
  | [] => [x]
  | y :: ys => if strLe x y then x :: y :: ys else y :: insertSorted x ys

/-- Ascending stable sort by full path string, Python `list.sort()`. -/
def sortStrings (l : List String) : List String :=
  l.foldr insertSorted []

/-! ## Multipart pattern `^(.*)-\d+-of-\d+\.gguf$` (`extract_gguf_files`) -/

/-- Does `t` match the tail regex `-\d+-of-\d+\.gguf` exactly?  Both
`\d+` groups are maximal digit runs; since the following characters
(`-`, `.`) are not digits, this deterministic parse is equivalent to the
backtracking regex. -/
def mpSuffix (t : List Char) : Bool :=
  match t with
  | c :: rest =>
    if c = '-' then
      if (rest.takeWhile (·.isDigit)).isEmpty then false
      else
        match rest.dropWhile (·.isDigit) with
        | c1 :: c2 :: c3 :: c4 :: rest2 =>
          if c1 = '-' ∧ c2 = 'o' ∧ c3 = 'f' ∧ c4 = '-' then
            !(rest2.takeWhile (·.isDigit)).isEmpty &&
              rest2.dropWhile (·.isDigit) = ['.', 'g', 'g', 'u', 'f']
          else false
        | _ => false
    else false
  | [] => false

/-- Greedy capture of group 1 in `re.match(r'^(.*)-\d+-of-\d+\.gguf$', ·)`:
the longest prefix whose complement matches the tail regex, or `none`
when the whole name does not match. -/
def multipartBase : List Char → Option (List Char)
  | [] => none
  | c :: cs =>
    match multipartBase cs with
    | some b => some (c :: b)
    | none => if mpSuffix (c :: cs) then some [] else none

/-- The group key `extract_gguf_files` assigns to one repository file:
the captured base plus `.gguf` on a multipart match of the basename,
otherwise the bare basename. -/
def groupKey (file : String) : String :=
  let filename := basename file
  match multipartBase filename.data with
  | some b => String.mk b ++ ".gguf"
  | none => filename

/-- The `defaultdict(list)` append: add `file` to the entry for `key`,
creating the entry at the end on first use (Python dict insertion
order). -/
def addToGroup : List (String × List String) → String → String →
    List (String × List String)
  | [], key, file => [(key, [file])]
  | (k, fs) :: rest, key, file =>
    if k = key then (k, fs ++ [file]) :: rest
    else (k, fs) :: addToGroup rest key file

/-- The grouping loop of `extract_gguf_files`: fold the filtered files
into the `defaultdict`. -/
def buildGroups (files : List String) : List (String × List String) :=
  files.foldl (fun gs f => addToGroup gs (groupKey f) f) []

/-- Embedding of `extract_gguf_files(repo_files)`: filter to `.gguf` entries, group by
`groupKey`, and sort each group's members ascending by full path. -/
def extract_gguf_files (repo_files : List String) : List (String × List String) :=
  (buildGroups (repo_files.filter (fun f => pyEndsWith f ".gguf"))).map
    (fun kv => (kv.1, sortStrings kv.2))

/-- Invariant of the grouping fold: keys are pairwise distinct and every
member sits in the group its own `groupKey` selects. -/
def GoodGroups (gs : List (String × List String)) : Prop :=
  (gs.map Prod.fst).Nodup ∧ ∀ kv ∈ gs, ∀ x ∈ kv.2, groupKey x = kv.1

/-! ## Required-config location (`download_model_configs`, lines 71-81) -/

/-- Python's `min` key `(x.count('/'), len(x))`. -/
def pathKey (s : String) : Nat × Nat := (s.data.count '/', s.length)

/-- Strict lexicographic order on `min` keys (Python tuple `<`). -/
def keyLt (a b : Nat × Nat) : Bool :=
  a.1 < b.1 || (a.1 == b.1 && a.2 < b.2)

/-- Python `min(matching_files, key=...)`: scan keeping the first element with
the minimal key (Python `min` keeps the earliest minimum). -/
def bestMatch (hd : String) : List String → String
  | [] => hd
  | x :: xs => bestMatch (if keyLt (pathKey x) (pathKey hd) then x else hd) xs

/-- The required-file location loop of `download_model_configs`: for each
required basename in order, the candidates are the listed paths ending
with it; the first basename with no candidate raises (maps to `.error`
with the exception's message), otherwise the best match is recorded. -/
def locate_required (repo_files : List String) :
    List String → Except String (List (String × String))
  | [] => .ok []
  | r :: rs =>
    match repo_files.filter (fun f => pyEndsWith f r) with
    | [] => .error (r ++ " not found anywhere in repository")
    | m :: ms =>
      match locate_required repo_files rs with
      | .error e => .error e
      | .ok found => .ok ((r, bestMatch m ms) :: found)

/-! ## Layout derivation (`download_model_configs` line 131,
`download_gguf_files` lines 495-510) -/

/-- Embedding of `model_repo.split("/")[-1]`: the model-level directory segment. -/
def model_segment (model_repo : String) : String :=
  String.mk ((pySplit '/' model_repo.data).getLastD [])

/-- Embedding of `gguf_repo.split("/")[0]`: the GGUF repository owner. -/
def gguf_author (gguf_repo : String) : String :=
  String.mk ((pySplit '/' gguf_repo.data).headD [])

/-- Python `selected_display.replace(".gguf", "")`: remove every
(non-overlapping, left-to-right) occurrence of `.gguf`. -/
def stripGgufAll : List Char → List Char
  | '.' :: 'g' :: 'g' :: 'u' :: 'f' :: rest => stripGgufAll rest
  | c :: rest => c :: stripGgufAll rest
  | [] => []

/-- The test `part.startswith('Q') and ('_' in part or part[1:].isdigit())`
(Python `str.isdigit` is `False` on the empty string). -/
def isQuantTag (p : List Char) : Bool :=
  match p with
  | 'Q' :: rest => rest.contains '_' || (!rest.isEmpty && rest.all (·.isDigit))
  | _ => false

/-- The quantization-shortening loop of `download_gguf_files`: when the
stripped key contains `-`, scan its `-`-components in reverse and take
the first quant-looking one, else keep the whole stripped key. -/
def derive_quant (q : List Char) : List Char :=
  if q.contains '-' then
    match (pySplit '-' q).reverse.find? isQuantTag with
    | some p => p
    | none => q
  else q

/-- The final `gguf_variant = f"{gguf_author}-{quantization}"` for a selected group
key, as computed in `download_gguf_files`. -/
def derive_variant (author selected_display : String) : String :=
  author ++ "-" ++ String.mk (derive_quant (stripGgufAll selected_display.data))

/-- Spec-side variant derivation, following the spec's words: "strip the
weight-file extension from `selected_group_key`" (remove a single
trailing `.gguf`), then the same quantization heuristic. -/
def claim_variant (author selected_display : String) : String :=
  let stripped :=
    if pyEndsWith selected_display ".gguf" then
      String.mk (selected_display.data.take (selected_display.data.length - 5))
    else selected_display
  author ++ "-" ++ String.mk (derive_quant stripped.data)

/-! ## Spec-side multipart pattern -/

/-- Declarative reading of the multipart pattern: `filename` decomposes
as `base ++ "-" ++ digits ++ "-of-" ++ digits ++ ".gguf"` with both
digit runs nonempty. -/
def MpSplitSpec (filename base : List Char) : Prop :=
  ∃ d1 d2 : List Char, d1 ≠ [] ∧ d2 ≠ [] ∧
    (∀ c ∈ d1, c.isDigit = true) ∧ (∀ c ∈ d2, c.isDigit = true) ∧
    filename = base ++ '-' ::
      (d1 ++ '-' :: 'o' :: 'f' :: '-' ::
        (d2 ++ '.' :: 'g' :: 'g' :: 'u' :: 'f' :: []))

/-- The captured base of the greedy `(.*)` group: a decomposition of
maximal base length. -/
def GreedyMpSpec (filename base : List Char) : Prop :=
  MpSplitSpec filename base ∧
    ∀ b', MpSplitSpec filename b' → b'.length ≤ base.length

/-! ## Interactive selection menus (`display_gguf_menu`,
`display_local_gguf_menu`) -/

/-- One user interaction at the `input()` prompt: an entered line, or a
`KeyboardInterrupt` raised during input. -/
inductive InEvent where
  | line (s : String)
  | interrupt
deriving DecidableEq

/-- Outcome of a menu session: a chosen option's payload, the `N+1`
fallback option, or an abort (Python returns `None`). -/
inductive MenuSel (α : Type) where
  | chosen (x : α)
  | fallbackChoice
  | aborted
deriving DecidableEq

/-- Digit tail of a Python `int()` literal: digits with single
underscores allowed between digits. -/
def pyDigitsAux : List Char → Nat → Option Nat
  | [], acc => some acc
  | '_' :: c :: cs, acc =>
    if c.isDigit then pyDigitsAux cs (acc * 10 + (c.toNat - 48)) else none
  | c :: cs, acc =>
    if c.isDigit then pyDigitsAux cs (acc * 10 + (c.toNat - 48)) else none

/-- Nonempty digit run starting a Python `int()` literal. -/
def pyDigitsStart : List Char → Option Nat
  | [] => none
  | c :: cs => if c.isDigit then pyDigitsAux cs (c.toNat - 48) else none

/-- Python `int(s)` on an already-stripped string: optional sign then
digits (with single internal underscores); `none` models `ValueError`. -/
def pyInt (s : String) : Option Int :=
  match s.data with
  | '+' :: cs => (pyDigitsStart cs).map (fun n => (n : Int))
  | '-' :: cs => (pyDigitsStart cs).map (fun n => -(n : Int))
  | cs => (pyDigitsStart cs).map (fun n => (n : Int))

/-- The shared `while True` input loop of `display_gguf_menu`
(`allowFallback = false`) and `display_local_gguf_menu`
(`allowFallback = true`): strip the line, compare its lowercase form to
`q`, parse an integer (`ValueError` re-prompts), select `options[k-1]`
for `1 <= k <= N`, take the fallback on `k = N+1` when offered, and
re-prompt otherwise; `KeyboardInterrupt` exits like `q`.  `none` means
the (finite) event list was exhausted with the loop still prompting. -/
def menu_loop {α : Type} (options : List α) (allowFallback : Bool) :
    List InEvent → Option (MenuSel α)
  | [] => none
  | .interrupt :: _ => some .aborted
  | .line input :: rest =>
    let choice := pyStripS input
    if pyLower choice = "q" then some .aborted
    else
      match pyInt choice with
      | none => menu_loop options allowFallback rest
      | some k =>
        if h : 1 ≤ k ∧ k ≤ (options.length : Int) then
          some (.chosen (options.get ⟨k.toNat - 1, by omega⟩))
        else if allowFallback && k == (options.length : Int) + 1 then
          some .fallbackChoice
        else menu_loop options allowFallback rest

/-- Lexicographic strict `<` on char lists (Python string `<`). -/
def charsLt : List Char → List Char → Bool
  | [], [] => false
  | [], _ :: _ => true
  | _ :: _, [] => false
  | a :: as, b :: bs =>
    if a < b then true
    else if b < a then false
    else charsLt as bs

/-- Python tuple `<=` on `(display_name, path)` pairs, as used by
`sorted(local_models.items())`. -/
def pairLe (a b : String × String) : Bool :=
  charsLt a.1.data b.1.data ||
    (a.1 == b.1 && charsLe a.2.data b.2.data)

/-- Insert into a `pairLe`-sorted list keeping order. -/
def insertPairSorted (x : String × String) :
    List (String × String) → List (String × String)
  | [] => [x]
  | y :: ys => if pairLe x y then x :: y :: ys else y :: insertPairSorted x ys

/-- Python `sorted(local_models.items())`. -/
def sortPairs (l : List (String × String)) : List (String × String) :=
  l.foldr insertPairSorted []

/-- Embedding of `display_local_gguf_menu`: an empty mapping short-circuits to
`"download_new"` before any prompt; otherwise the menu loop runs over
the alphabetically sorted entries, mapping a chosen entry to its
directory path, the `N+1` option to `"download_new"` and quit/interrupt
to Python's `None` (modelled as the inner `none`). -/
def display_local_gguf_menu (local_models : List (String × String))
    (events : List InEvent) : Option (Option String) :=
  if local_models.isEmpty then some (some "download_new")
  else
    (menu_loop (sortPairs local_models) true events).map (fun r =>
      match r with
      | .chosen kv => some kv.2
      | .fallbackChoice => some "download_new"
      | .aborted => none)

/-! ## Local artifact scanner (`scan_local_gguf_files`) -/

/-- A directory tree: the files directly inside, and named
subdirectories. -/
inductive FSTree where
  | node (files : List String) (subdirs : List (String × FSTree))

/-- Number of direct children files ending in `.gguf`
(`[f for f in files if f.endswith('.gguf')]`). -/
def ggufCount (files : List String) : Nat :=
  (files.filter (fun f => pyEndsWith f ".gguf")).length

/-- The display label `scan_local_gguf_files` builds for a qualifying
directory: the `Root directory` wording at relative path `.`, else the
relative path, each with the direct `.gguf` file count. -/
def dirLabel (rel : String) (n : Nat) : String :=
  if rel = "." then "Root directory (" ++ toString n ++ " GGUF files)"
  else rel ++ " (" ++ toString n ++ " GGUF files)"

/-- Relative path of a child directory under `os.walk`. -/
def childRel (rel name : String) : String :=
  if rel = "." then name else rel ++ "/" ++ name

mutual

/-- Embedding of `os.walk(path)` (top-down): the directory itself, then its subtrees
in order; each entry carries (absolute path, path relative to the scan
root, direct files). -/
def walkAux (path rel : String) (files : List String)
    (subdirs : List (String × FSTree)) : List (String × String × List String) :=
  (path, rel, files) :: walkChildren path rel subdirs

/-- Walk the children of a directory in order. -/
def walkChildren (path rel : String) :
    List (String × FSTree) → List (String × String × List String)
  | [] => []
  | (n, FSTree.node fs subs) :: rest =>
    walkAux (path ++ "/" ++ n) (childRel rel n) fs subs ++
      walkChildren path rel rest

end

/-- Embedding of `os.walk(base)` over the whole tree, the root at relative path `.`. -/
def walk (base : String) : FSTree → List (String × String × List String)
  | FSTree.node fs subs => walkAux base "." fs subs

/-- Python dict assignment `d[k] = v` on an insertion-ordered mapping: a
fresh key is appended at the end; an existing key keeps its original
position and its value is overwritten. -/
def dictInsert (m : List (String × String)) (k v : String) :
    List (String × String) :=
  match m with
  | [] => [(k, v)]
  | (k', v') :: rest =>
    if k' = k then (k', v) :: rest else (k', v') :: dictInsert rest k v

/-- One iteration of the scan loop: a directory with at least one direct
`.gguf` file executes `local_models[display_name] = root`, anything else
is skipped. -/
def scanStep (m : List (String × String)) (e : String × String × List String) :
    List (String × String) :=
  if ggufCount e.2.2 ≠ 0 then
    dictInsert m (dirLabel e.2.1 (ggufCount e.2.2)) e.1
  else m

/-- Embedding of `scan_local_gguf_files(base_work_dir)`: `none` models a
non-existent work directory (`os.path.exists` false; the code prints a
warning and returns the empty mapping), otherwise the walked directories
with at least one direct `.gguf` file are assigned into the
`local_models` dict in walk order, a colliding display label
overwriting the earlier entry's path. -/
def scan_local_gguf_files : Option (String × FSTree) → List (String × String)
  | none => []
  | some (base, t) => (walk base t).foldl scanStep []

/-- The display labels of the qualifying directories of a walk, in walk
order. -/
def qualLabels (es : List (String × String × List String)) : List String :=
  (es.filter (fun e => decide (ggufCount e.2.2 ≠ 0))).map
    (fun e => dirLabel e.2.1 (ggufCount e.2.2))

mutual

/-- Spec-side count of qualifying directories: a directory counts iff it
directly contains at least one `.gguf` file; subdirectory contents never
count toward the parent. -/
def countQual : FSTree → Nat
  | FSTree.node fs subs => (if ggufCount fs ≠ 0 then 1 else 0) + countQualList subs

/-- Sum of `countQual` over named subtrees. -/
def countQualList : List (String × FSTree) → Nat
  | [] => 0
  | (_, t) :: rest => countQual t + countQualList rest

end

/-! ## Readiness probe (`check_service_ready_from_logs`) -/

/-- The literal readiness marker. -/
def marker : List Char := "Application startup complete".data

/-- Does `l` contain `pat` as a contiguous substring (Python `in`)? -/
def containsSub (pat : List Char) : List Char → Bool
  | [] => startsWithL pat []
  | c :: cs => startsWithL pat (c :: cs) || containsSub pat cs

/-- The log-streaming loop of `check_service_ready_from_logs`.  Each
stream element is (elapsed seconds at receipt, decoded chunk text).  At
each chunk: give up when the timeout is exceeded, else append the chunk
to the carried buffer, scan the newly completed (newline-terminated)
lines — stripped, as the code does — for the marker, and carry the
unterminated tail forward.  Stream end without the marker is `false`. -/
def probeAux (timeout : Nat) : List (Nat × String) → List Char → Bool
  | [], _ => false
  | (t, chunk) :: rest, buffer =>
    if timeout < t then false
    else if (pySplit '\n' (buffer ++ chunk.data)).dropLast.any
        (fun l => containsSub marker (pyStrip l)) then true
    else probeAux timeout rest ((pySplit '\n' (buffer ++ chunk.data)).getLastD [])

/-- Embedding of `check_service_ready_from_logs` on a finite stream of timed chunks,
starting with an empty line buffer. -/
def check_service_ready_from_logs (timeout : Nat)
    (chunks : List (Nat × String)) : Bool :=
  probeAux timeout chunks []

/-- Spec side: the chunks the loop can process — the longest prefix
received while the elapsed time is within the timeout. -/
def goodChunks (timeout : Nat) (chunks : List (Nat × String)) :
    List (Nat × String) :=
  chunks.takeWhile (fun c => decide (c.1 ≤ timeout))

/-- Spec side: the newline-terminated lines completed within a chunk
sequence. -/
def completedLines (chunks : List (Nat × String)) : List (List Char) :=
  (pySplit '\n' (chunks.map (fun c => c.2.data)).flatten).dropLast

/-! ## Helper lemmas about `pySplit` -/

theorem pySplitAux_ne_nil (sep : Char) (cs acc : List Char) :
    pySplitAux sep cs acc ≠ [] := by
  induction cs generalizing acc with
  | nil => simp [pySplitAux]
  | cons c cs ih =>
    by_cases h : c = sep
    · simp [pySplitAux, h]
    · simp only [pySplitAux, if_neg h]
      exact ih _

theorem getLastD_irrel {α : Type} (l : List α) (d d' : α) (h : l ≠ []) :
    l.getLastD d = l.getLastD d' := by
  cases l with
  | nil => exact absurd rfl h
  | cons a l => rw [List.getLastD_cons, List.getLastD_cons]

theorem pySplitAux_no_sep (sep : Char) (cs acc : List Char) (h : sep ∉ cs) :
    pySplitAux sep cs acc = [acc.reverse ++ cs] := by
  induction cs generalizing acc with
  | nil => simp [pySplitAux]
  | cons c cs ih =>
    have hc : c ≠ sep := fun hcs => h (hcs ▸ List.mem_cons_self c cs)
    have hcs : sep ∉ cs := fun hmem => h (List.mem_cons_of_mem c hmem)
    simp [pySplitAux, hc, ih _ hcs]

theorem pySplitAux_sep_cons (sep : Char) (cs acc : List Char) :
    pySplitAux sep (sep :: cs) acc = acc.reverse :: pySplitAux sep cs [] := by
  simp [pySplitAux]

theorem pySplitAux_getLastD (sep : Char) (xs ys acc : List Char) :
    (pySplitAux sep (xs ++ sep :: ys) acc).getLastD [] =
      (pySplitAux sep ys []).getLastD [] := by
  induction xs generalizing acc with
  | nil =>
    rw [List.nil_append, pySplitAux_sep_cons, List.getLastD_cons]
    exact getLastD_irrel _ _ _ (pySplitAux_ne_nil sep ys [])
  | cons x xs ih =>
    by_cases hx : x = sep
    · rw [hx]
      rw [List.cons_append, pySplitAux_sep_cons, List.getLastD_cons]
      rw [getLastD_irrel _ _ [] (pySplitAux_ne_nil sep (xs ++ sep :: ys) [])]
      exact ih []
    · simp only [List.cons_append, pySplitAux, if_neg hx]
      exact ih _

theorem string_data_append (a b : String) : (a ++ b).data = a.data ++ b.data := rfl

theorem string_mk_data (s : String) : String.mk s.data = s := rfl

/-- The model-level segment on an `owner/name` identifier whose name part
contains no `/` is exactly the name part. -/
theorem model_segment_eq_name (owner name : String) (h : '/' ∉ name.data) :
    model_segment (owner ++ "/" ++ name) = name := by
  unfold model_segment pySplit
  have hdata : (owner ++ "/" ++ name).data = owner.data ++ '/' :: name.data := by
    rw [string_data_append, string_data_append]
    simp [List.append_assoc]
  rw [hdata, pySplitAux_getLastD, pySplitAux_no_sep _ _ _ h]
  simp [List.getLastD]

/-! ## Lemmas about the `min` tie-break -/

theorem keyLt_irrefl (a : Nat × Nat) : keyLt a a = false := by
  simp [keyLt]

theorem keyLt_trans {a b c : Nat × Nat} (h1 : keyLt a b = true)
    (h2 : keyLt b c = true) : keyLt a c = true := by
  simp only [keyLt, Bool.or_eq_true, Bool.and_eq_true, decide_eq_true_eq,
    beq_iff_eq] at *
  omega

theorem keyLt_of_not_lt_of_lt {a b c : Nat × Nat} (h1 : keyLt b a = false)
    (h2 : keyLt b c = true) : keyLt a c = true := by
  simp only [keyLt, Bool.or_eq_true, Bool.and_eq_true, decide_eq_true_eq,
    beq_iff_eq, Bool.or_eq_false_iff, Bool.and_eq_false_iff,
    decide_eq_false_iff_not, beq_eq_false_iff_ne] at *
  omega

theorem bestMatch_mem (tl : List String) (hd : String) :
    bestMatch hd tl ∈ hd :: tl := by
  induction tl generalizing hd with
  | nil => simp [bestMatch]
  | cons x xs ih =>
    rw [bestMatch]
    have h := ih (if keyLt (pathKey x) (pathKey hd) then x else hd)
    by_cases hx : keyLt (pathKey x) (pathKey hd) = true
    · rw [if_pos hx] at h ⊢
      rcases List.mem_cons.mp h with h1 | h1
      · rw [h1]
        exact List.mem_cons_of_mem hd (List.mem_cons_self x xs)
      · exact List.mem_cons_of_mem hd (List.mem_cons_of_mem x h1)
    · rw [if_neg hx] at h ⊢
      rcases List.mem_cons.mp h with h1 | h1
      · rw [h1]
        exact List.mem_cons_self hd (x :: xs)
      · exact List.mem_cons_of_mem hd (List.mem_cons_of_mem x h1)

theorem bestMatch_min (tl : List String) (hd : String) :
    ∀ c ∈ hd :: tl, keyLt (pathKey c) (pathKey (bestMatch hd tl)) = false := by
  induction tl generalizing hd with
  | nil =>
    intro c hc
    rw [List.mem_singleton.mp hc, bestMatch]
    exact keyLt_irrefl _
  | cons x xs ih =>
    intro c hc
    rw [bestMatch]
    by_cases hx : keyLt (pathKey x) (pathKey hd) = true
    · rw [if_pos hx]
      rcases List.mem_cons.mp hc with h | h
      · rw [h]
        have hxm := ih x x (List.mem_cons_self x xs)
        by_contra hcb
        rw [Bool.not_eq_false] at hcb
        exact absurd (keyLt_trans hx hcb) (by rw [hxm]; simp)
      · exact ih x c h
    · rw [if_neg hx]
      have hx' : keyLt (pathKey x) (pathKey hd) = false := by
        simpa using hx
      rcases List.mem_cons.mp hc with h | h
      · rw [h]
        exact ih hd hd (List.mem_cons_self hd xs)
      · rcases List.mem_cons.mp h with h' | h'
        · rw [h']
          have hhd := ih hd hd (List.mem_cons_self hd xs)
          by_contra hcb
          rw [Bool.not_eq_false] at hcb
          exact absurd (keyLt_of_not_lt_of_lt hx' hcb) (by rw [hhd]; simp)
        · exact ih hd c (List.mem_cons_of_mem hd h')

theorem pySplitAux_length (sep : Char) (cs acc : List Char) :
    (pySplitAux sep cs acc).length = cs.count sep + 1 := by
  induction cs generalizing acc with
  | nil => simp [pySplitAux]
  | cons c cs ih =>
    by_cases h : c = sep
    · subst h
      simp [pySplitAux, ih, List.count_cons]
    · simp [pySplitAux, if_neg h, ih, List.count_cons, h]

/-- Spec-side tie-break key: (number of `/`-delimited components, string
length). -/
def componentsLenKey (s : String) : Nat × Nat :=
  ((pySplit '/' s.data).length, s.length)

/-- Lexicographic `≤` on spec-side keys. -/
def KeyLeSpec (a b : Nat × Nat) : Prop :=
  a.1 < b.1 ∨ (a.1 = b.1 ∧ a.2 ≤ b.2)

theorem keyLt_false_to_spec {sel c : String}
    (h : keyLt (pathKey c) (pathKey sel) = false) :
    KeyLeSpec (componentsLenKey sel) (componentsLenKey c) := by
  simp only [keyLt, pathKey, Bool.or_eq_false_iff, Bool.and_eq_false_iff,
    decide_eq_false_iff_not, beq_eq_false_iff_ne, Ne] at h
  simp only [componentsLenKey, KeyLeSpec, pySplit, pySplitAux_length]
  omega

/-! ## Claim C3: model-level directory segment -/

/-- C3, counterexample: the code derives the model-level directory
segment as `model_repo.split("/")[-1]`, so for the repo
`bartowski/Llama-3.2-3B-Instruct-GGUF` the segment is the bare name
`Llama-3.2-3B-Instruct-GGUF`, not `owner + "-" + name` as claimed. -/
theorem model_segment_cex :
    model_segment "bartowski/Llama-3.2-3B-Instruct-GGUF"
        = "Llama-3.2-3B-Instruct-GGUF"
    ∧ model_segment "bartowski/Llama-3.2-3B-Instruct-GGUF"
        ≠ "bartowski-Llama-3.2-3B-Instruct-GGUF" :=
  ⟨rfl, by decide⟩

/-- C3, amended: for every repository identifier `owner/name` whose name
part contains no further `/`, the model-level directory segment equals
the name part alone. -/
theorem model_segment_amended :
    (∀ owner name : String, '/' ∉ name.data →
      model_segment (owner ++ "/" ++ name) = name)
    ∧ model_segment "bartowski/Llama-3.2-3B-Instruct-GGUF"
        = "Llama-3.2-3B-Instruct-GGUF" :=
  ⟨fun owner name h => model_segment_eq_name owner name h, rfl⟩

/-- Witness for `model_segment_amended` at the claim's repo. -/
theorem model_segment_amended_witness :
    ('/' ∉ "Llama-3.2-3B-Instruct-GGUF".data)
    ∧ model_segment ("bartowski" ++ "/" ++ "Llama-3.2-3B-Instruct-GGUF")
        = "Llama-3.2-3B-Instruct-GGUF" :=
  ⟨by decide, model_segment_amended.1 "bartowski" "Llama-3.2-3B-Instruct-GGUF"
    (by decide)⟩

/-! ## Claim C4: missing required files -/

/-- C4, counterexample: with `tokenizer.json` also missing, the location
step raises on the first missing basename (`config.json`) and never
returns a `missing` collection to the caller. -/
theorem locate_missing_cex :
    locate_required ["model.gguf"] ["config.json", "tokenizer.json"]
        = .error "config.json not found anywhere in repository"
    ∧ ∀ found, locate_required ["model.gguf"] ["config.json", "tokenizer.json"]
        ≠ .ok found := by
  refine ⟨rfl, fun found h => ?_⟩
  rw [show locate_required ["model.gguf"] ["config.json", "tokenizer.json"]
      = .error "config.json not found anywhere in repository" from rfl] at h
  exact Except.noConfusion h

/-- C4, amended: the first required basename with zero candidates makes
the location step raise an exception naming that basename alone; later
basenames are not examined (the enclosing handler prints the message and
re-prompts, so the failure is not fatal to the process). -/
theorem locate_missing_amended (repo_files : List String) (r : String)
    (rs : List String) (h : repo_files.filter (fun f => pyEndsWith f r) = []) :
    locate_required repo_files (r :: rs)
      = .error (r ++ " not found anywhere in repository") := by
  rw [locate_required, h]

/-- Witness for `locate_missing_amended`. -/
theorem locate_missing_amended_witness :
    (["model.gguf"].filter (fun f => pyEndsWith f "config.json") = [])
    ∧ locate_required ["model.gguf"] ["config.json", "tokenizer.json"]
        = .error ("config.json" ++ " not found anywhere in repository") :=
  ⟨by decide, locate_missing_amended ["model.gguf"] "config.json"
    ["tokenizer.json"] (by decide)⟩

/-! ## Claim C5: tie-break among multiple candidates -/

/-- C5: when a required basename has two or more candidates, the
selected path is a candidate minimizing first the number of
`/`-delimited components, then the string length (lexicographic
comparison of `(components, length)`), and it is the path recorded for
that basename by the location step; in particular locating `config.json`
among `["a/config.json", "config.json"]` selects the root-level
`config.json`. -/
theorem locate_tiebreak (repo_files : List String) (r c1 c2 : String)
    (cs : List String)
    (h : repo_files.filter (fun f => pyEndsWith f r) = c1 :: c2 :: cs) :
    (bestMatch c1 (c2 :: cs) ∈ c1 :: c2 :: cs
      ∧ (∀ c ∈ c1 :: c2 :: cs,
          KeyLeSpec (componentsLenKey (bestMatch c1 (c2 :: cs)))
            (componentsLenKey c))
      ∧ (∀ rs found, locate_required repo_files rs = .ok found →
          locate_required repo_files (r :: rs)
            = .ok ((r, bestMatch c1 (c2 :: cs)) :: found)))
    ∧ locate_required ["a/config.json", "config.json"] ["config.json"]
        = .ok [("config.json", "config.json")] := by
  refine ⟨⟨bestMatch_mem (c2 :: cs) c1, fun c hc => ?_, fun rs found hf => ?_⟩, rfl⟩
  · exact keyLt_false_to_spec (bestMatch_min (c2 :: cs) c1 c hc)
  · rw [locate_required, h, hf]

/-- Witness for `locate_tiebreak` at the claim's example listing. -/
theorem locate_tiebreak_witness :
    (["a/config.json", "config.json"].filter
        (fun f => pyEndsWith f "config.json")
      = "a/config.json" :: "config.json" :: [])
    ∧ ((bestMatch "a/config.json" ("config.json" :: [])
          ∈ "a/config.json" :: "config.json" :: []
      ∧ (∀ c ∈ "a/config.json" :: "config.json" :: [],
          KeyLeSpec
            (componentsLenKey (bestMatch "a/config.json" ("config.json" :: [])))
            (componentsLenKey c))
      ∧ (∀ rs found,
          locate_required ["a/config.json", "config.json"] rs = .ok found →
          locate_required ["a/config.json", "config.json"] ("config.json" :: rs)
            = .ok (("config.json",
                bestMatch "a/config.json" ("config.json" :: [])) :: found)))
      ∧ locate_required ["a/config.json", "config.json"] ["config.json"]
        = .ok [("config.json", "config.json")]) :=
  ⟨by decide, locate_tiebreak ["a/config.json", "config.json"] "config.json"
    "a/config.json" "config.json" [] (by decide)⟩

/-! ## Claim C6: variant-segment heuristic -/

/-- C6, counterexample: the code removes every occurrence of `.gguf`
(`str.replace`), not just the trailing extension, so the reachable group
key `a.gguf.gguf` yields variant `bartowski-a` while the claimed
computation (strip the extension, then the heuristic) yields
`bartowski-a.gguf`. -/
theorem derive_variant_cex :
    extract_gguf_files ["a.gguf.gguf"] = [("a.gguf.gguf", ["a.gguf.gguf"])]
    ∧ derive_variant "bartowski" "a.gguf.gguf" = "bartowski-a"
    ∧ claim_variant "bartowski" "a.gguf.gguf" = "bartowski-a.gguf"
    ∧ derive_variant "bartowski" "a.gguf.gguf"
        ≠ claim_variant "bartowski" "a.gguf.gguf" :=
  ⟨rfl, rfl, rfl, by decide⟩

/-- C6, amended: for every selected group key and owner, the variant
segment is `owner ++ "-" ++ tag` where `tag` is obtained by removing
every occurrence of `.gguf` from the key, splitting on `-`, scanning
components in reverse and taking the first quantization-shaped one
(`Q` followed by `_` somewhere, or `Q` plus a nonempty all-digit rest),
the full `.gguf`-free key when none matches; the derivation is total
(never an error), and `model-Q4_K_M.gguf` with owner `bartowski` gives
`bartowski-Q4_K_M`. -/
theorem derive_variant_amended :
    (∀ author key : String,
      derive_variant author key
        = author ++ "-" ++ String.mk
            (match (pySplit '-' (stripGgufAll key.data)).reverse.find? isQuantTag with
             | some p => p
             | none => stripGgufAll key.data))
    ∧ derive_variant "bartowski" "model-Q4_K_M.gguf" = "bartowski-Q4_K_M" := by
  refine ⟨fun author key => ?_, rfl⟩
  unfold derive_variant derive_quant
  by_cases h : (stripGgufAll key.data).contains '-'
  · rw [if_pos h]
  · rw [if_neg h]
    have hq : '-' ∉ stripGgufAll key.data := by
      intro hm
      exact h (List.elem_iff.mpr hm)
    rw [pySplit, pySplitAux_no_sep '-' _ [] hq]
    simp only [List.reverse_cons, List.reverse_nil, List.nil_append,
      List.find?]
    cases hqt : isQuantTag (stripGgufAll key.data) <;> simp

/-! ## Claim C8: selection-menu loop contract -/

/-- C8: the menu input loop (shared by `display_gguf_menu` and
`display_local_gguf_menu`) aborts on a case-insensitive quit token,
returns option `k`'s payload for a parseable integer `k ∈ [1, N]`,
returns the fallback sentinel for `N+1` when the fallback is offered,
re-prompts — continuing with the remaining input, never terminating the
loop — on any other input (non-numeric or out of range), and treats an
interrupt during input exactly like the quit token. -/
theorem menu_loop_contract {α : Type} (options : List α) (allowFallback : Bool)
    (rest : List InEvent) (s : String) :
    (pyLower (pyStripS s) = "q" →
      menu_loop options allowFallback (.line s :: rest) = some .aborted)
    ∧ (∀ (k : Int) (x : α), pyLower (pyStripS s) ≠ "q" →
        pyInt (pyStripS s) = some k → 1 ≤ k → k ≤ (options.length : Int) →
        options.get? (k.toNat - 1) = some x →
        menu_loop options allowFallback (.line s :: rest) = some (.chosen x))
    ∧ (pyLower (pyStripS s) ≠ "q" →
        pyInt (pyStripS s) = some ((options.length : Int) + 1) →
        allowFallback = true →
        menu_loop options allowFallback (.line s :: rest)
          = some .fallbackChoice)
    ∧ (pyLower (pyStripS s) ≠ "q" → pyInt (pyStripS s) = none →
        menu_loop options allowFallback (.line s :: rest)
          = menu_loop options allowFallback rest)
    ∧ (∀ k : Int, pyLower (pyStripS s) ≠ "q" → pyInt (pyStripS s) = some k →
        (k < 1 ∨ (options.length : Int) < k) →
        (allowFallback = false ∨ k ≠ (options.length : Int) + 1) →
        menu_loop options allowFallback (.line s :: rest)
          = menu_loop options allowFallback rest)
    ∧ menu_loop options allowFallback (.interrupt :: rest) = some .aborted
    ∧ menu_loop options allowFallback (.line "q" :: rest) = some .aborted := by
  refine ⟨?_, ?_, ?_, ?_, ?_, rfl, rfl⟩
  · intro hq
    rw [menu_loop]
    simp [hq]
  · intro k x hq hk h1 hN hget
    rw [menu_loop]
    simp only [if_neg hq, hk]
    have hkN : 1 ≤ k ∧ k ≤ (options.length : Int) := ⟨h1, hN⟩
    rw [dif_pos hkN]
    obtain ⟨hlt, hx⟩ := List.get?_eq_some.mp hget
    congr 1
    rw [← hx]
  · intro hq hk hfb
    rw [menu_loop]
    simp only [if_neg hq, hk]
    have hnot : ¬(1 ≤ (options.length : Int) + 1
        ∧ (options.length : Int) + 1 ≤ (options.length : Int)) := by omega
    rw [dif_neg hnot, hfb]
    simp
  · intro hq hk
    rw [menu_loop]
    simp only [if_neg hq, hk]
  · intro k hq hk hout hnofb
    rw [menu_loop]
    simp only [if_neg hq, hk]
    have hnot : ¬(1 ≤ k ∧ k ≤ (options.length : Int)) := by omega
    rw [dif_neg hnot]
    have : (allowFallback && k == (options.length : Int) + 1) = false := by
      rcases hnofb with h | h
      · rw [h, Bool.false_and]
      · rw [beq_eq_false_iff_ne.mpr h, Bool.and_false]
    rw [this]
    simp

/-- Witness for `menu_loop_contract`: a two-option menu resolving quit,
a choice, the fallback, re-prompts on invalid and out-of-range input,
and an interrupt. -/
theorem menu_loop_contract_witness :
    (pyLower (pyStripS " Q ") = "q"
      ∧ menu_loop ["optA", "optB"] false [.line " Q "] = some .aborted)
    ∧ menu_loop ["optA", "optB"] false [.line "2"] = some (.chosen "optB")
    ∧ menu_loop ["optA", "optB"] true [.line "3"] = some .fallbackChoice
    ∧ menu_loop ["optA", "optB"] false (.line "abc" :: [.line "1"])
        = menu_loop ["optA", "optB"] false [.line "1"]
    ∧ menu_loop ["optA", "optB"] false (.line "7" :: [])
        = menu_loop ["optA", "optB"] false []
    ∧ menu_loop ["optA", "optB"] true [.interrupt] = some .aborted :=
  ⟨⟨by decide, (menu_loop_contract ["optA", "optB"] false [] " Q ").1 (by decide)⟩,
    (menu_loop_contract ["optA", "optB"] false [] "2").2.1 2 "optB" (by decide)
      (by decide) (by decide) (by decide) (by decide),
    (menu_loop_contract ["optA", "optB"] true [] "3").2.2.1 (by decide)
      (by decide) rfl,
    (menu_loop_contract ["optA", "optB"] false [.line "1"] "abc").2.2.2.1
      (by decide) (by decide),
    (menu_loop_contract ["optA", "optB"] false [] "7").2.2.2.2.1 7 (by decide)
      (by decide) (by decide) (Or.inl rfl),
    (menu_loop_contract ["optA", "optB"] true [] "").2.2.2.2.2.1⟩

/-! ## Claim C10: empty local-model mapping -/

/-- C10: with an empty local-models mapping, `display_local_gguf_menu`
returns the `download_new` sentinel immediately, independent of any user
input (no prompt is consulted). -/
theorem empty_local_menu :
    (∀ events, display_local_gguf_menu [] events = some (some "download_new"))
    ∧ ∀ events events',
        display_local_gguf_menu [] events = display_local_gguf_menu [] events' :=
  ⟨fun _ => rfl, fun _ _ => rfl⟩

/-! ## Claim C7: local artifact scanner -/

mutual

theorem walkAux_qual_length (path rel : String) (files : List String)
    (subdirs : List (String × FSTree)) :
    ((walkAux path rel files subdirs).filter
        (fun e => decide (ggufCount e.2.2 ≠ 0))).length
      = (if ggufCount files ≠ 0 then 1 else 0) + countQualList subdirs := by
  rw [walkAux, List.filter_cons]
  by_cases h : ggufCount files ≠ 0
  · rw [if_pos (by simpa using h), if_pos h, List.length_cons,
      walkChildren_qual_length path rel subdirs]
    omega
  · rw [if_neg (by simpa using h), if_neg h,
      walkChildren_qual_length path rel subdirs]
    omega

theorem walkChildren_qual_length (path rel : String) :
    ∀ l : List (String × FSTree),
      ((walkChildren path rel l).filter
          (fun e => decide (ggufCount e.2.2 ≠ 0))).length = countQualList l
  | [] => by simp [walkChildren, countQualList]
  | (n, FSTree.node fs subs) :: rest => by
    rw [walkChildren, List.filter_append, List.length_append,
      walkAux_qual_length _ _ fs subs, walkChildren_qual_length path rel rest,
      countQualList, countQual]

end

/-- C7: the scanner maps a missing root to the empty mapping; over an
existing tree it produces exactly one entry per directory directly
containing at least one `.gguf` file (subdirectory contents never
qualify a parent), each entry labeled by the directory's relative path
and its direct `.gguf` count and valued by its path; a tree with weight
files only in `root/a/b` yields the single entry `a/b (1 GGUF files)`. -/
theorem dictInsert_fresh (m : List (String × String)) (k v : String)
    (h : ∀ kv ∈ m, kv.1 ≠ k) : dictInsert m k v = m ++ [(k, v)] := by
  induction m with
  | nil => rfl
  | cons kv rest ih =>
    obtain ⟨k', v'⟩ := kv
    rw [dictInsert,
      if_neg (h (k', v') (List.mem_cons_self _ _)), List.cons_append,
      ih (fun kv2 h2 => h kv2 (List.mem_cons_of_mem _ h2))]

theorem scanFold_append (es : List (String × String × List String)) :
    ∀ m : List (String × String),
      (qualLabels es).Nodup →
      (∀ lbl ∈ qualLabels es, ∀ kv ∈ m, kv.1 ≠ lbl) →
      es.foldl scanStep m
        = m ++ (es.filter (fun e => decide (ggufCount e.2.2 ≠ 0))).map
            (fun e => (dirLabel e.2.1 (ggufCount e.2.2), e.1)) := by
  induction es with
  | nil => intro m _ _; simp
  | cons e es ih =>
    intro m hnd hfresh
    by_cases hq : ggufCount e.2.2 ≠ 0
    · have hlblsq : qualLabels (e :: es)
          = dirLabel e.2.1 (ggufCount e.2.2) :: qualLabels es := by
        rw [qualLabels, List.filter_cons, if_pos (by simpa using hq),
          List.map_cons]
        rfl
      rw [hlblsq] at hnd hfresh
      have hstep : scanStep m e = m ++ [(dirLabel e.2.1 (ggufCount e.2.2), e.1)] := by
        rw [scanStep, if_pos hq,
          dictInsert_fresh m _ e.1
            (hfresh _ (List.mem_cons_self _ _))]
      rw [List.foldl_cons, hstep,
        ih _ ((List.nodup_cons.mp hnd).2) ?_]
      · rw [List.filter_cons, if_pos (by simpa using hq), List.map_cons,
          List.append_assoc]
        rfl
      · intro lbl hlbl kv hkv
        rcases List.mem_append.mp hkv with hkv | hkv
        · exact hfresh lbl (List.mem_cons_of_mem _ hlbl) kv hkv
        · rw [List.mem_singleton.mp hkv]
          intro hcontra
          have hc2 : dirLabel e.2.1 (ggufCount e.2.2) = lbl := hcontra
          exact (List.nodup_cons.mp hnd).1 (hc2 ▸ hlbl)
    · have hlblsq : qualLabels (e :: es) = qualLabels es := by
        rw [qualLabels, List.filter_cons, if_neg (by simpa using hq)]
        rfl
      rw [hlblsq] at hnd hfresh
      rw [List.foldl_cons, show scanStep m e = m from by rw [scanStep, if_neg hq],
        ih m hnd hfresh, List.filter_cons, if_neg (by simpa using hq)]

/-- C7, counterexample: with the scan root directly containing a weight
file and a direct subdirectory literally named `Root directory` also
containing one, both directories qualify but their display labels
collide, so the dict assignment keeps a single entry (the later one) —
the claimed one-entry-per-qualifying-directory correspondence fails. -/
theorem scan_label_overwrite_cex :
    countQual (FSTree.node ["r.gguf"]
        [("Root directory", FSTree.node ["s.gguf"] [])]) = 2
    ∧ scan_local_gguf_files (some ("/w", FSTree.node ["r.gguf"]
        [("Root directory", FSTree.node ["s.gguf"] [])]))
      = [("Root directory (1 GGUF files)", "/w/Root directory")]
    ∧ (scan_local_gguf_files (some ("/w", FSTree.node ["r.gguf"]
        [("Root directory", FSTree.node ["s.gguf"] [])]))).length
      ≠ countQual (FSTree.node ["r.gguf"]
        [("Root directory", FSTree.node ["s.gguf"] [])]) := by
  have h1 : countQual (FSTree.node ["r.gguf"]
      [("Root directory", FSTree.node ["s.gguf"] [])]) = 2 := by
    simp only [countQual, countQualList]
    norm_num [ggufCount, pyEndsWith, startsWithL]
  have h2 : scan_local_gguf_files (some ("/w", FSTree.node ["r.gguf"]
      [("Root directory", FSTree.node ["s.gguf"] [])]))
      = [("Root directory (1 GGUF files)", "/w/Root directory")] := by
    simp only [scan_local_gguf_files, walk, walkAux, walkChildren, childRel]
    norm_num [scanStep, dictInsert, ggufCount, dirLabel, pyEndsWith,
      startsWithL]
    decide
  refine ⟨h1, h2, ?_⟩
  rw [h1, h2]
  decide

/-- C7, amended: a missing scan root yields the empty mapping (the
failure is only reported); over an existing tree the scanner assigns
`display label ↦ directory path` for each directory with at least one
direct `.gguf` file (subdirectory contents never qualify a parent), a
later colliding label overwriting the earlier path, so whenever the
qualifying directories' labels are pairwise distinct — every tree
without a directory literally named `Root directory` alongside an
equally-counted collision partner — the mapping has exactly one entry
per qualifying directory, labeled by its relative path and direct
count. -/
theorem scan_local_amended :
    scan_local_gguf_files none = []
    ∧ (∀ base t, (qualLabels (walk base t)).Nodup →
        (scan_local_gguf_files (some (base, t))).length = countQual t)
    ∧ (∀ base t, (qualLabels (walk base t)).Nodup → ∀ lbl p,
        ((lbl, p) ∈ scan_local_gguf_files (some (base, t)) ↔
          ∃ rel fs, (p, rel, fs) ∈ walk base t ∧ ggufCount fs ≠ 0 ∧
            lbl = dirLabel rel (ggufCount fs)))
    ∧ scan_local_gguf_files
        (some ("/w", .node [] [("a", .node [] [("b", .node ["w.gguf"] [])])]))
        = [("a/b (1 GGUF files)", "/w/a/b")] := by
  have hscan : ∀ base t, (qualLabels (walk base t)).Nodup →
      scan_local_gguf_files (some (base, t))
        = ((walk base t).filter (fun e => decide (ggufCount e.2.2 ≠ 0))).map
            (fun e => (dirLabel e.2.1 (ggufCount e.2.2), e.1)) := by
    intro base t hnd
    rw [scan_local_gguf_files,
      scanFold_append (walk base t) [] hnd (by intro _ _ kv hkv; cases hkv),
      List.nil_append]
  refine ⟨rfl, fun base t hnd => ?_, fun base t hnd lbl p => ?_, ?_⟩
  · rw [hscan base t hnd]
    cases t with
    | node fs subs =>
      rw [List.length_map, walk, walkAux_qual_length base "." fs subs,
        countQual]
  · rw [hscan base t hnd]
    simp only [List.mem_map, List.mem_filter, decide_eq_true_eq]
    constructor
    · rintro ⟨⟨p', rel, fs⟩, ⟨hw, hq⟩, heq⟩
      rw [Prod.mk.injEq] at heq
      exact ⟨rel, fs, heq.2 ▸ hw, hq, heq.1.symm⟩
    · rintro ⟨rel, fs, hw, hq, hlbl⟩
      exact ⟨(p, rel, fs), ⟨hw, hq⟩, by rw [hlbl]⟩
  · simp only [scan_local_gguf_files, walk, walkAux, walkChildren, childRel]
    norm_num [scanStep, dictInsert, ggufCount, dirLabel, pyEndsWith,
      startsWithL]
    decide

/-- Witness for `scan_local_amended` on the spec's `root/a/b` tree,
whose single qualifying directory trivially has distinct labels. -/
theorem scan_local_amended_witness :
    (qualLabels (walk "/w"
        (.node [] [("a", .node [] [("b", .node ["w.gguf"] [])])]))).Nodup
    ∧ (scan_local_gguf_files (some ("/w",
        .node [] [("a", .node [] [("b", .node ["w.gguf"] [])])]))).length
      = countQual (.node [] [("a", .node [] [("b", .node ["w.gguf"] [])])]) := by
  have hq : qualLabels (walk "/w"
      (.node [] [("a", .node [] [("b", .node ["w.gguf"] [])])]))
      = ["a/b (1 GGUF files)"] := by
    simp only [qualLabels, walk, walkAux, walkChildren, childRel]
    norm_num [ggufCount, dirLabel, pyEndsWith, startsWithL]
    decide
  have hnd : (qualLabels (walk "/w"
      (.node [] [("a", .node [] [("b", .node ["w.gguf"] [])])]))).Nodup := by
    rw [hq]
    exact List.nodup_singleton _
  exact ⟨hnd, scan_local_amended.2.1 "/w" _ hnd⟩

/-! ## Claim C9: readiness probe -/

theorem pySplitAux_append (sep : Char) (xs ys acc : List Char) :
    pySplitAux sep (xs ++ ys) acc
      = (pySplitAux sep xs acc).dropLast
        ++ pySplitAux sep ys ((pySplitAux sep xs acc).getLastD []).reverse := by
  induction xs generalizing acc with
  | nil =>
    simp [pySplitAux]
  | cons x xs ih =>
    by_cases hx : x = sep
    · rw [hx, List.cons_append, pySplitAux_sep_cons, pySplitAux_sep_cons, ih []]
      have hne := pySplitAux_ne_nil sep xs []
      rw [List.dropLast_cons_of_ne_nil hne, List.getLastD_cons, List.cons_append,
        getLastD_irrel (pySplitAux sep xs []) acc.reverse [] hne]
    · rw [List.cons_append, pySplitAux, if_neg hx, pySplitAux, if_neg hx]
      exact ih _

theorem pySplitAux_not_mem_sep (sep : Char) (cs : List Char) :
    ∀ acc : List Char, sep ∉ acc →
      ∀ seg ∈ pySplitAux sep cs acc, sep ∉ seg := by
  induction cs with
  | nil =>
    intro acc hacc seg hseg
    rw [pySplitAux, List.mem_singleton] at hseg
    rw [hseg]
    simpa using hacc
  | cons c cs ih =>
    intro acc hacc seg hseg
    by_cases hc : c = sep
    · rw [hc, pySplitAux_sep_cons, List.mem_cons] at hseg
      rcases hseg with h | h
      · rw [h]
        simpa using hacc
      · exact ih [] (List.not_mem_nil sep) seg h
    · rw [pySplitAux, if_neg hc] at hseg
      refine ih (c :: acc) ?_ seg hseg
      intro hmem
      rcases List.mem_cons.mp hmem with h | h
      · exact hc h.symm
      · exact hacc h

theorem getLastD_mem {α : Type} (l : List α) (d : α) (h : l ≠ []) :
    l.getLastD d ∈ l := by
  rw [List.getLastD_eq_getLast?, List.getLast?_eq_getLast l h, Option.getD_some]
  exact List.getLast_mem h

theorem pySplit_last_not_sep (sep : Char) (cs : List Char) :
    sep ∉ (pySplit sep cs).getLastD [] :=
  pySplitAux_not_mem_sep sep cs [] (List.not_mem_nil sep) _
    (getLastD_mem _ _ (pySplitAux_ne_nil sep cs []))

theorem pySplit_no_sep (sep : Char) (cs : List Char) (h : sep ∉ cs) :
    pySplit sep cs = [cs] := by
  rw [pySplit, pySplitAux_no_sep sep cs [] h, List.reverse_nil, List.nil_append]

theorem pySplit_dropLast_append (sep : Char) (bc F : List Char) :
    (pySplit sep (bc ++ F)).dropLast
      = (pySplit sep bc).dropLast
        ++ (pySplit sep ((pySplit sep bc).getLastD [] ++ F)).dropLast := by
  have hlast : sep ∉ (pySplit sep bc).getLastD [] := pySplit_last_not_sep sep bc
  have h2 : pySplit sep ((pySplit sep bc).getLastD [] ++ F)
      = pySplitAux sep F ((pySplit sep bc).getLastD []).reverse := by
    rw [pySplit, pySplitAux_append sep _ F [],
      pySplitAux_no_sep sep _ [] hlast]
    simp
  have h1 : pySplit sep (bc ++ F)
      = (pySplit sep bc).dropLast
        ++ pySplit sep ((pySplit sep bc).getLastD [] ++ F) := by
    rw [h2, pySplit, pySplitAux_append sep bc F []]
    rfl
  have hne2 : pySplit sep ((pySplit sep bc).getLastD [] ++ F) ≠ [] :=
    pySplitAux_ne_nil sep _ []
  rw [h1, List.dropLast_append_of_ne_nil _ hne2]

theorem probeAux_iff (timeout : Nat) (chunks : List (Nat × String)) :
    ∀ buf : List Char, '\n' ∉ buf →
      (probeAux timeout chunks buf = true ↔
        ∃ l ∈ (pySplit '\n'
            (buf ++ ((goodChunks timeout chunks).map (fun c => c.2.data)).flatten)).dropLast,
          containsSub marker (pyStrip l) = true) := by
  induction chunks with
  | nil =>
    intro buf hbuf
    rw [probeAux, goodChunks, List.takeWhile_nil]
    rw [List.map_nil, List.flatten_nil, List.append_nil, pySplit_no_sep _ _ hbuf]
    simp
  | cons tc rest ih =>
    intro buf hbuf
    obtain ⟨t, c⟩ := tc
    by_cases ht : t ≤ timeout
    · have hgood : goodChunks timeout ((t, c) :: rest)
          = (t, c) :: goodChunks timeout rest := by
        rw [goodChunks, List.takeWhile_cons, decide_eq_true (by exact ht)]
        rfl
      rw [probeAux, if_neg (by omega), hgood, List.map_cons, List.flatten_cons,
        ← List.append_assoc]
      rw [pySplit_dropLast_append '\n' (buf ++ c.data)]
      by_cases hany : (pySplit '\n' (buf ++ c.data)).dropLast.any
          (fun l => containsSub marker (pyStrip l)) = true
      · rw [if_pos hany]
        rcases List.any_eq_true.mp hany with ⟨l, hl, hp⟩
        simp only [true_iff]
        exact ⟨l, List.mem_append_left _ hl, hp⟩
      · rw [if_neg hany]
        rw [ih _ (pySplit_last_not_sep '\n' (buf ++ c.data))]
        constructor
        · rintro ⟨l, hl, hp⟩
          exact ⟨l, List.mem_append_right _ hl, hp⟩
        · rintro ⟨l, hl, hp⟩
          rcases List.mem_append.mp hl with h | h
          · exact absurd (List.any_eq_true.mpr ⟨l, h, hp⟩) hany
          · exact ⟨l, h, hp⟩
    · have hgood : goodChunks timeout ((t, c) :: rest) = [] := by
        simp [goodChunks, List.takeWhile_cons, ht]
      rw [probeAux, if_pos (by omega), hgood]
      rw [List.map_nil, List.flatten_nil, List.append_nil, pySplit_no_sep _ _ hbuf]
      simp

theorem startsWithL_isPrefix (pat l : List Char) :
    startsWithL pat l = true ↔ pat <+: l := by
  induction pat generalizing l with
  | nil => simp [startsWithL]
  | cons p ps ih =>
    cases l with
    | nil => simp [startsWithL]
    | cons c cs =>
      rw [startsWithL, Bool.and_eq_true, beq_iff_eq, ih,
        List.cons_prefix_cons]

theorem containsSub_isInfix (pat l : List Char) :
    containsSub pat l = true ↔ pat <:+: l := by
  induction l with
  | nil =>
    rw [containsSub, startsWithL_isPrefix]
    simp
  | cons c cs ih =>
    rw [containsSub, Bool.or_eq_true, startsWithL_isPrefix, ih,
      List.infix_cons_iff]

theorem infix_dropWhile {α : Type} (p : α → Bool) (a : α) (l' l : List α)
    (ha : p a = false) (h : (a :: l') <:+: l) :
    (a :: l') <:+: l.dropWhile p := by
  obtain ⟨s, t, rfl⟩ := h
  rw [List.append_assoc, List.dropWhile_append]
  by_cases hs : (s.dropWhile p).isEmpty
  · rw [if_pos hs, List.cons_append, List.dropWhile_cons]
    simp only [ha, Bool.false_eq_true, if_false]
    exact ⟨[], t, by simp⟩
  · rw [if_neg hs]
    exact ⟨s.dropWhile p, t, by rw [List.append_assoc]⟩

theorem pyStrip_isInfix (l : List Char) : pyStrip l <:+: l := by
  have ha : l.dropWhile isPySpace <:+ l := List.dropWhile_suffix isPySpace
  have hb : (l.dropWhile isPySpace).reverse.dropWhile isPySpace
      <:+ (l.dropWhile isPySpace).reverse := List.dropWhile_suffix isPySpace
  have hp : ((l.dropWhile isPySpace).reverse.dropWhile isPySpace).reverse
      <+: l.dropWhile isPySpace := by
    rw [← List.reverse_suffix]
    simpa using hb
  exact (hp.isInfix).trans ha.isInfix

theorem marker_head : marker = 'A' :: "pplication startup complete".data := rfl

theorem marker_reverse_head :
    marker.reverse = 'e' :: "telpmoc putrats noitacilppA".data := by decide

theorem marker_infix_pyStrip (l : List Char) :
    marker <:+: pyStrip l ↔ marker <:+: l := by
  constructor
  · intro h
    exact h.trans (pyStrip_isInfix l)
  · intro h
    have h1 : marker <:+: l.dropWhile isPySpace := by
      rw [marker_head] at h ⊢
      exact infix_dropWhile isPySpace 'A' _ l (by decide) h
    have h2 : marker.reverse <:+:
        (l.dropWhile isPySpace).reverse.dropWhile isPySpace := by
      rw [marker_reverse_head]
      refine infix_dropWhile isPySpace 'e' _ _ (by decide) ?_
      rw [← marker_reverse_head]
      exact List.reverse_infix.mpr h1
    have h3 := List.reverse_infix.mpr h2
    simpa [pyStrip] using h3

/-- C9: over a finite timed chunk stream, the readiness probe returns
`true` iff some log line completed within the timeout window contains
the literal marker substring `Application startup complete`; when the
timeout is exceeded at a chunk or the stream ends without the marker it
returns `false` (the negative direction of the same equivalence) rather
than propagating a failure. -/
theorem readiness_probe_iff (timeout : Nat) (chunks : List (Nat × String)) :
    check_service_ready_from_logs timeout chunks = true ↔
      ∃ l ∈ completedLines (goodChunks timeout chunks), marker <:+: l := by
  rw [check_service_ready_from_logs,
    probeAux_iff timeout chunks [] (List.not_mem_nil _), List.nil_append]
  rw [completedLines]
  constructor
  · rintro ⟨l, hl, hp⟩
    exact ⟨l, hl, (marker_infix_pyStrip l).mp ((containsSub_isInfix _ _).mp hp)⟩
  · rintro ⟨l, hl, hp⟩
    exact ⟨l, hl, (containsSub_isInfix _ _).mpr ((marker_infix_pyStrip l).mpr hp)⟩

/-! ## Claims C1/C2: grouping of GGUF files -/

theorem addToGroup_flatten_perm (gs : List (String × List String))
    (k f : String) :
    ((addToGroup gs k f).map Prod.snd).flatten.Perm
      (((gs.map Prod.snd).flatten) ++ [f]) := by
  induction gs with
  | nil => simp [addToGroup]
  | cons kv rest ih =>
    obtain ⟨k', fs⟩ := kv
    by_cases hk : k' = k
    · rw [addToGroup, if_pos hk]
      simp only [List.map_cons, List.flatten_cons]
      calc (fs ++ [f]) ++ (rest.map Prod.snd).flatten
          = fs ++ ([f] ++ (rest.map Prod.snd).flatten) := by
            rw [List.append_assoc]
        _ ~ fs ++ ((rest.map Prod.snd).flatten ++ [f]) :=
            List.Perm.append_left fs List.perm_append_comm
        _ = (fs ++ (rest.map Prod.snd).flatten) ++ [f] := by
            rw [List.append_assoc]
    · rw [addToGroup, if_neg hk]
      simp only [List.map_cons, List.flatten_cons]
      calc fs ++ ((addToGroup rest k f).map Prod.snd).flatten
          ~ fs ++ ((rest.map Prod.snd).flatten ++ [f]) :=
            List.Perm.append_left fs ih
        _ = (fs ++ (rest.map Prod.snd).flatten) ++ [f] := by
            rw [List.append_assoc]

theorem foldl_groups_flatten_perm (files : List String) :
    ∀ gs : List (String × List String),
      (((files.foldl (fun gs f => addToGroup gs (groupKey f) f) gs)).map
          Prod.snd).flatten.Perm ((gs.map Prod.snd).flatten ++ files) := by
  induction files with
  | nil => intro gs; simp
  | cons f fs ih =>
    intro gs
    rw [List.foldl_cons]
    calc ((fs.foldl (fun gs f => addToGroup gs (groupKey f) f)
            (addToGroup gs (groupKey f) f)).map Prod.snd).flatten
        ~ ((addToGroup gs (groupKey f) f).map Prod.snd).flatten ++ fs :=
          ih (addToGroup gs (groupKey f) f)
      _ ~ ((gs.map Prod.snd).flatten ++ [f]) ++ fs :=
          (addToGroup_flatten_perm gs (groupKey f) f).append_right fs
      _ = (gs.map Prod.snd).flatten ++ (f :: fs) := by
          rw [List.append_assoc]
          rfl

theorem buildGroups_flatten_perm (files : List String) :
    ((buildGroups files).map Prod.snd).flatten.Perm files := by
  have h := foldl_groups_flatten_perm files []
  simpa [buildGroups] using h

theorem addToGroup_keys (gs : List (String × List String)) (k f : String) :
    (addToGroup gs k f).map Prod.fst
      = if k ∈ gs.map Prod.fst then gs.map Prod.fst
        else gs.map Prod.fst ++ [k] := by
  induction gs with
  | nil => simp [addToGroup]
  | cons kv rest ih =>
    obtain ⟨k', fs⟩ := kv
    by_cases hk : k' = k
    · rw [addToGroup, if_pos hk]
      simp [hk]
    · rw [addToGroup, if_neg hk]
      simp only [List.map_cons, List.mem_cons, ih]
      by_cases hmem : k ∈ rest.map Prod.fst
      · rw [if_pos hmem, if_pos (Or.inr hmem)]
      · rw [if_neg hmem, if_neg (by rintro (h | h); exact hk h.symm; exact hmem h)]
        rfl

theorem addToGroup_good (gs : List (String × List String)) (f : String)
    (hg : GoodGroups gs) : GoodGroups (addToGroup gs (groupKey f) f) := by
  obtain ⟨hnd, hmem⟩ := hg
  constructor
  · rw [addToGroup_keys]
    by_cases hk : groupKey f ∈ gs.map Prod.fst
    · rw [if_pos hk]; exact hnd
    · rw [if_neg hk]
      refine List.Nodup.append hnd (List.nodup_singleton _) ?_
      intro a ha hb
      rw [List.mem_singleton] at hb
      exact hk (hb ▸ ha)
  · intro kv hkv x hx
    clear hnd
    induction gs with
    | nil =>
      rw [addToGroup, List.mem_singleton] at hkv
      rw [hkv] at hx ⊢
      rw [List.mem_singleton.mp hx]
    | cons kv' rest ih =>
      obtain ⟨k', fs⟩ := kv'
      by_cases hk : k' = groupKey f
      · rw [addToGroup, if_pos hk, List.mem_cons] at hkv
        rcases hkv with h | h
        · rw [h] at hx ⊢
          rcases List.mem_append.mp hx with h' | h'
          · exact hmem (k', fs) (List.mem_cons_self _ _) x h'
          · rw [List.mem_singleton.mp h', hk]
        · exact hmem kv (List.mem_cons_of_mem _ h) x hx
      · rw [addToGroup, if_neg hk, List.mem_cons] at hkv
        rcases hkv with h | h
        · rw [h] at hx ⊢
          exact hmem (k', fs) (List.mem_cons_self _ _) x hx
        · exact ih (fun kv2 h2 => hmem kv2 (List.mem_cons_of_mem _ h2)) h

theorem buildGroups_good (files : List String) :
    GoodGroups (buildGroups files) := by
  rw [buildGroups]
  have h : ∀ gs : List (String × List String), GoodGroups gs →
      GoodGroups (files.foldl (fun gs f => addToGroup gs (groupKey f) f) gs) := by
    induction files with
    | nil => intro gs hg; exact hg
    | cons f fs ih =>
      intro gs hg
      rw [List.foldl_cons]
      exact ih _ (addToGroup_good gs f hg)
  exact h [] ⟨List.nodup_nil, by simp⟩

theorem insertSorted_perm (x : String) (l : List String) :
    (insertSorted x l).Perm (x :: l) := by
  induction l with
  | nil => exact List.Perm.refl _
  | cons y ys ih =>
    rw [insertSorted]
    by_cases h : strLe x y = true
    · rw [if_pos h]
    · rw [if_neg h]
      calc y :: insertSorted x ys
          ~ y :: x :: ys := (ih).cons y
        _ ~ x :: y :: ys := List.Perm.swap x y ys

theorem sortStrings_perm (l : List String) : (sortStrings l).Perm l := by
  induction l with
  | nil => exact List.Perm.refl _
  | cons x xs ih =>
    rw [sortStrings, List.foldr_cons]
    calc insertSorted x (sortStrings xs)
        ~ x :: sortStrings xs := insertSorted_perm x (sortStrings xs)
      _ ~ x :: xs := ih.cons x

theorem extract_flatten_perm (repo_files : List String) :
    ((extract_gguf_files repo_files).map Prod.snd).flatten.Perm
      (repo_files.filter (fun f => pyEndsWith f ".gguf")) := by
  rw [extract_gguf_files]
  have hsort : ∀ gs : List (String × List String),
      (((gs.map (fun kv => (kv.1, sortStrings kv.2))).map Prod.snd).flatten).Perm
        ((gs.map Prod.snd).flatten) := by
    intro gs
    induction gs with
    | nil => exact List.Perm.refl _
    | cons kv rest ih =>
      simp only [List.map_cons, List.flatten_cons]
      exact (sortStrings_perm kv.2).append ih
  exact (hsort _).trans (buildGroups_flatten_perm _)

theorem extract_good (repo_files : List String) :
    ((extract_gguf_files repo_files).map Prod.fst).Nodup
    ∧ ∀ kv ∈ extract_gguf_files repo_files, ∀ x ∈ kv.2, groupKey x = kv.1 := by
  obtain ⟨hnd, hmem⟩ :=
    buildGroups_good (repo_files.filter (fun f => pyEndsWith f ".gguf"))
  constructor
  · rw [extract_gguf_files, List.map_map]
    exact hnd
  · intro kv hkv x hx
    rw [extract_gguf_files, List.mem_map] at hkv
    obtain ⟨kv0, hkv0, hkveq⟩ := hkv
    rw [← hkveq] at hx ⊢
    exact hmem kv0 hkv0 x ((sortStrings_perm kv0.2).mem_iff.mp hx)

/-- C1: for every file listing without duplicate entries, the groups
returned by `extract_gguf_files` are pairwise disjoint, and the
concatenation of all group member lists contains exactly the listing's
entries ending in `.gguf`, each exactly once. -/
theorem gguf_grouping_partition (repo_files : List String)
    (h : repo_files.Nodup) :
    (extract_gguf_files repo_files).Pairwise
        (fun a b => ∀ f, f ∈ a.2 → f ∉ b.2)
    ∧ ((extract_gguf_files repo_files).map Prod.snd).flatten.Nodup
    ∧ ∀ f, f ∈ ((extract_gguf_files repo_files).map Prod.snd).flatten ↔
        (f ∈ repo_files ∧ pyEndsWith f ".gguf" = true) := by
  obtain ⟨hnd, hmem⟩ := extract_good repo_files
  have hperm := extract_flatten_perm repo_files
  refine ⟨?_, ?_, ?_⟩
  · have hpair : (extract_gguf_files repo_files).Pairwise
        (fun a b => a.1 ≠ b.1) := by
      rw [List.Nodup, List.pairwise_map] at hnd
      exact hnd
    refine hpair.imp_of_mem ?_
    intro a b ha hb hab f hfa hfb
    exact hab ((hmem a ha f hfa).symm.trans (hmem b hb f hfb))
  · exact hperm.nodup_iff.mpr (h.filter _)
  · intro f
    rw [hperm.mem_iff, List.mem_filter]

/-- Witness for `gguf_grouping_partition` on a concrete listing with a
multipart pair, a single file and a non-GGUF file. -/
theorem gguf_grouping_partition_witness :
    (["m-00001-of-00002.gguf", "m-00002-of-00002.gguf", "s.gguf",
        "README.md"] : List String).Nodup
    ∧ ((extract_gguf_files ["m-00001-of-00002.gguf", "m-00002-of-00002.gguf",
          "s.gguf", "README.md"]).Pairwise
        (fun a b => ∀ f, f ∈ a.2 → f ∉ b.2)
      ∧ ((extract_gguf_files ["m-00001-of-00002.gguf", "m-00002-of-00002.gguf",
          "s.gguf", "README.md"]).map Prod.snd).flatten.Nodup
      ∧ ∀ f, f ∈ ((extract_gguf_files ["m-00001-of-00002.gguf",
          "m-00002-of-00002.gguf", "s.gguf", "README.md"]).map
            Prod.snd).flatten ↔
          (f ∈ ["m-00001-of-00002.gguf", "m-00002-of-00002.gguf", "s.gguf",
            "README.md"] ∧ pyEndsWith f ".gguf" = true)) :=
  ⟨by decide, gguf_grouping_partition _ (by decide)⟩

theorem takeWhile_all_append {α : Type} (p : α → Bool) (xs : List α) (y : α)
    (ys : List α) (hxs : ∀ x ∈ xs, p x = true) (hy : p y = false) :
    (xs ++ y :: ys).takeWhile p = xs := by
  induction xs with
  | nil =>
    rw [List.nil_append, List.takeWhile_cons, hy]
    rfl
  | cons x xs ih =>
    rw [List.cons_append, List.takeWhile_cons,
      hxs x (List.mem_cons_self x xs), if_pos rfl,
      ih (fun a ha => hxs a (List.mem_cons_of_mem x ha))]

theorem dropWhile_all_append {α : Type} (p : α → Bool) (xs : List α) (y : α)
    (ys : List α) (hxs : ∀ x ∈ xs, p x = true) (hy : p y = false) :
    (xs ++ y :: ys).dropWhile p = y :: ys := by
  induction xs with
  | nil =>
    rw [List.nil_append, List.dropWhile_cons, hy]
    rfl
  | cons x xs ih =>
    rw [List.cons_append, List.dropWhile_cons,
      hxs x (List.mem_cons_self x xs), if_pos rfl]
    exact ih (fun a ha => hxs a (List.mem_cons_of_mem x ha))

theorem mpSuffix_iff (t : List Char) :
    mpSuffix t = true ↔ ∃ d1 d2 : List Char, d1 ≠ [] ∧ d2 ≠ [] ∧
      (∀ c ∈ d1, c.isDigit = true) ∧ (∀ c ∈ d2, c.isDigit = true) ∧
      t = '-' ::
        (d1 ++ '-' :: 'o' :: 'f' :: '-' ::
          (d2 ++ '.' :: 'g' :: 'g' :: 'u' :: 'f' :: [])) := by
  constructor
  · intro h
    unfold mpSuffix at h
    split at h
    · rename_i c rest
      by_cases hc : c = '-'
      · rw [if_pos hc] at h
        subst hc
        by_cases hd1 : (rest.takeWhile (·.isDigit)).isEmpty
        · rw [if_pos hd1] at h
          exact absurd h (by simp)
        · rw [if_neg hd1] at h
          split at h
          · rename_i c1 c2 c3 c4 rest2 heq
            by_cases hofs : c1 = '-' ∧ c2 = 'o' ∧ c3 = 'f' ∧ c4 = '-'
            · rw [if_pos hofs] at h
              obtain ⟨rfl, rfl, rfl, rfl⟩ := hofs
              rw [Bool.and_eq_true, Bool.not_eq_true', decide_eq_true_eq] at h
              obtain ⟨hd2, hr2⟩ := h
              refine ⟨rest.takeWhile (·.isDigit), rest2.takeWhile (·.isDigit),
                ?_, ?_, ?_, ?_, ?_⟩
              · simpa [List.isEmpty_iff] using hd1
              · simpa [List.isEmpty_iff] using hd2
              · exact fun a ha => List.mem_takeWhile_imp ha
              · exact fun a ha => List.mem_takeWhile_imp ha
              · have h1 : rest = rest.takeWhile (·.isDigit)
                    ++ rest.dropWhile (·.isDigit) :=
                  (List.takeWhile_append_dropWhile ..).symm
                have h2 : rest2 = rest2.takeWhile (·.isDigit)
                    ++ rest2.dropWhile (·.isDigit) :=
                  (List.takeWhile_append_dropWhile ..).symm
                have key : rest = rest.takeWhile (·.isDigit)
                    ++ '-' :: 'o' :: 'f' :: '-' ::
                      (rest2.takeWhile (·.isDigit)
                        ++ '.' :: 'g' :: 'g' :: 'u' :: 'f' :: []) := by
                  calc rest
                      = rest.takeWhile (·.isDigit)
                        ++ rest.dropWhile (·.isDigit) := h1
                    _ = rest.takeWhile (·.isDigit)
                        ++ ('-' :: 'o' :: 'f' :: '-' :: rest2) := by rw [heq]
                    _ = rest.takeWhile (·.isDigit)
                        ++ ('-' :: 'o' :: 'f' :: '-' ::
                          (rest2.takeWhile (·.isDigit)
                            ++ rest2.dropWhile (·.isDigit))) := by rw [← h2]
                    _ = rest.takeWhile (·.isDigit)
                        ++ '-' :: 'o' :: 'f' :: '-' ::
                          (rest2.takeWhile (·.isDigit)
                            ++ '.' :: 'g' :: 'g' :: 'u' :: 'f' :: []) := by
                        rw [hr2]
                conv_lhs => rw [key]
            · rw [if_neg hofs] at h
              exact absurd h (by simp)
          · exact absurd h (by simp)
      · rw [if_neg hc] at h
        exact absurd h (by simp)
    · exact absurd h (by simp)
  · rintro ⟨d1, d2, hd1, hd2, hall1, hall2, rfl⟩
    simp only [mpSuffix,
      takeWhile_all_append _ d1 '-' _ hall1 (by decide),
      dropWhile_all_append _ d1 '-' _ hall1 (by decide),
      takeWhile_all_append _ d2 '.' _ hall2 (by decide),
      dropWhile_all_append _ d2 '.' _ hall2 (by decide)]
    simp [List.isEmpty_iff, hd1, hd2]

theorem multipartBase_sound : ∀ (cs b : List Char),
    multipartBase cs = some b → ∃ t, cs = b ++ t ∧ mpSuffix t = true := by
  intro cs
  induction cs with
  | nil => intro b h; exact absurd h (by simp [multipartBase])
  | cons c cs ih =>
    intro b h
    rw [multipartBase] at h
    cases hm : multipartBase cs with
    | some b' =>
      rw [hm] at h
      obtain ⟨t, ht, hsuf⟩ := ih b' hm
      rw [Option.some.injEq] at h
      exact ⟨t, by rw [← h, ht, List.cons_append], hsuf⟩
    | none =>
      rw [hm] at h
      by_cases hsuf : mpSuffix (c :: cs) = true
      · rw [if_pos hsuf] at h
        rw [Option.some.injEq] at h
        exact ⟨c :: cs, by rw [← h, List.nil_append], hsuf⟩
      · rw [if_neg hsuf] at h
        exact absurd h (by simp)

theorem multipartBase_none : ∀ cs : List Char,
    multipartBase cs = none → ∀ b t, cs = b ++ t → mpSuffix t = false := by
  intro cs
  induction cs with
  | nil =>
    intro _ b t hbt
    obtain ⟨rfl, rfl⟩ : b = [] ∧ t = [] := List.append_eq_nil.mp hbt.symm
    rfl
  | cons c cs ih =>
    intro h b t hbt
    rw [multipartBase] at h
    cases hm : multipartBase cs with
    | some b' => rw [hm] at h; exact absurd h (by simp)
    | none =>
      rw [hm] at h
      by_cases hsuf : mpSuffix (c :: cs) = true
      · rw [if_pos hsuf] at h; exact absurd h (by simp)
      · rw [if_neg hsuf] at h
        cases b with
        | nil =>
          rw [List.nil_append] at hbt
          rw [← hbt]
          exact Bool.not_eq_true _ ▸ hsuf
        | cons b0 bs =>
          rw [List.cons_append, List.cons.injEq] at hbt
          exact ih hm bs t hbt.2

theorem multipartBase_maximal : ∀ (cs b : List Char),
    multipartBase cs = some b → ∀ b' t', cs = b' ++ t' →
      mpSuffix t' = true → b'.length ≤ b.length := by
  intro cs
  induction cs with
  | nil => intro b h; exact absurd h (by simp [multipartBase])
  | cons c cs ih =>
    intro b h b' t' hbt hsuf
    rw [multipartBase] at h
    cases hm : multipartBase cs with
    | some b0 =>
      rw [hm] at h
      rw [Option.some.injEq] at h
      cases b' with
      | nil => simp [← h]
      | cons b0' bs' =>
        rw [List.cons_append, List.cons.injEq] at hbt
        rw [← h, List.length_cons, List.length_cons]
        exact Nat.succ_le_succ (ih b0 hm bs' t' hbt.2 hsuf)
    | none =>
      rw [hm] at h
      by_cases hs : mpSuffix (c :: cs) = true
      · rw [if_pos hs, Option.some.injEq] at h
        cases b' with
        | nil => simp [← h]
        | cons b0' bs' =>
          rw [List.cons_append, List.cons.injEq] at hbt
          exact absurd hsuf (by rw [multipartBase_none cs hm bs' t' hbt.2]; simp)
      · rw [if_neg hs] at h
        exact absurd h (by simp)

theorem mpSplitSpec_of_suffix {filename b t : List Char}
    (hbt : filename = b ++ t) (hsuf : mpSuffix t = true) :
    MpSplitSpec filename b := by
  obtain ⟨d1, d2, hd1, hd2, hall1, hall2, rfl⟩ := (mpSuffix_iff t).mp hsuf
  exact ⟨d1, d2, hd1, hd2, hall1, hall2, hbt⟩

theorem suffix_of_mpSplitSpec {filename b : List Char}
    (h : MpSplitSpec filename b) :
    ∃ t, filename = b ++ t ∧ mpSuffix t = true := by
  obtain ⟨d1, d2, hd1, hd2, hall1, hall2, heq⟩ := h
  exact ⟨_, heq, (mpSuffix_iff _).mpr ⟨d1, d2, hd1, hd2, hall1, hall2, rfl⟩⟩

/-- On a greedy multipart match of the basename, the group key is the
captured base plus `.gguf`. -/
theorem groupKey_of_greedy (f : String) (base : List Char)
    (h : GreedyMpSpec (basename f).data base) :
    groupKey f = String.mk base ++ ".gguf" := by
  obtain ⟨hsplit, hmax⟩ := h
  obtain ⟨t0, ht0, hsuf0⟩ := suffix_of_mpSplitSpec hsplit
  cases hm : multipartBase (basename f).data with
  | none =>
    exact absurd hsuf0
      (by rw [multipartBase_none _ hm base t0 ht0]; simp)
  | some b0 =>
    obtain ⟨t1, ht1, hsuf1⟩ := multipartBase_sound _ b0 hm
    have hle1 : base.length ≤ b0.length :=
      multipartBase_maximal _ b0 hm base t0 ht0 hsuf0
    have hle2 : b0.length ≤ base.length :=
      hmax b0 (mpSplitSpec_of_suffix ht1 hsuf1)
    have hlen : b0.length = base.length := Nat.le_antisymm hle2 hle1
    have hb : b0 = base :=
      (List.append_inj (ht1.symm.trans ht0) hlen).1
    rw [groupKey, hm, hb]

/-- Without any multipart decomposition of the basename, the group key
is the bare basename. -/
theorem groupKey_of_nomatch (f : String)
    (h : ¬ ∃ base, MpSplitSpec (basename f).data base) :
    groupKey f = basename f := by
  cases hm : multipartBase (basename f).data with
  | none => rw [groupKey, hm]
  | some b0 =>
    obtain ⟨t1, ht1, hsuf1⟩ := multipartBase_sound _ b0 hm
    exact absurd ⟨b0, mpSplitSpec_of_suffix ht1 hsuf1⟩ h

/-- Every filtered file lands in the group keyed by its `groupKey`. -/
theorem extract_mem_group (repo_files : List String) (f : String)
    (hf : f ∈ repo_files) (hgg : pyEndsWith f ".gguf" = true) :
    ∃ ms, (groupKey f, ms) ∈ extract_gguf_files repo_files ∧ f ∈ ms := by
  have hmem : f ∈ ((extract_gguf_files repo_files).map Prod.snd).flatten :=
    (extract_flatten_perm repo_files).mem_iff.mpr
      (List.mem_filter.mpr ⟨hf, hgg⟩)
  rw [List.mem_flatten] at hmem
  obtain ⟨l, hl, hfl⟩ := hmem
  rw [List.mem_map] at hl
  obtain ⟨kv, hkv, hkvl⟩ := hl
  have hf2 : f ∈ kv.2 := by rw [hkvl]; exact hfl
  have hkey := (extract_good repo_files).2 kv hkv f hf2
  refine ⟨kv.2, ?_, hf2⟩
  rw [hkey]
  exact hkv

theorem charsLe_trans : ∀ a b c : List Char,
    charsLe a b = true → charsLe b c = true → charsLe a c = true
  | [], _, _, _, _ => rfl
  | _ :: _, [], _, h1, _ => by rw [charsLe] at h1; exact absurd h1 (by simp)
  | _ :: _, _ :: _, [], _, h2 => by rw [charsLe] at h2; exact absurd h2 (by simp)
  | x :: xs, y :: ys, z :: zs, h1, h2 => by
    rw [charsLe] at h1 h2 ⊢
    by_cases hxy : x < y
    · by_cases hyz : y < z
      · rw [if_pos (lt_trans hxy hyz)]
      · by_cases hzy : z < y
        · rw [if_neg hyz, if_pos hzy] at h2
          exact absurd h2 (by simp)
        · have hyz' : y = z := le_antisymm (not_lt.mp hzy) (not_lt.mp hyz)
          rw [if_pos (hyz' ▸ hxy)]
    · by_cases hyx : y < x
      · rw [if_neg hxy, if_pos hyx] at h1
        exact absurd h1 (by simp)
      · have hxy' : x = y := le_antisymm (not_lt.mp hyx) (not_lt.mp hxy)
        rw [if_neg hxy, if_neg hyx] at h1
        by_cases hyz : y < z
        · rw [if_pos (hxy' ▸ hyz)]
        · by_cases hzy : z < y
          · rw [if_neg hyz, if_pos hzy] at h2
            exact absurd h2 (by simp)
          · rw [if_neg hyz, if_neg hzy] at h2
            have hyz' : y = z := le_antisymm (not_lt.mp hzy) (not_lt.mp hyz)
            rw [if_neg (by rw [hxy', hyz']; exact lt_irrefl z),
              if_neg (by rw [hxy', hyz']; exact lt_irrefl z)]
            exact charsLe_trans xs ys zs h1 h2

theorem charsLe_total : ∀ a b : List Char,
    charsLe a b = true ∨ charsLe b a = true
  | [], _ => Or.inl rfl
  | _ :: _, [] => Or.inr rfl
  | x :: xs, y :: ys => by
    rw [charsLe, charsLe]
    by_cases hxy : x < y
    · exact Or.inl (by rw [if_pos hxy])
    · by_cases hyx : y < x
      · exact Or.inr (by rw [if_pos hyx])
      · rcases charsLe_total xs ys with h | h
        · exact Or.inl (by rw [if_neg hxy, if_neg hyx]; exact h)
        · exact Or.inr (by rw [if_neg hyx, if_neg hxy]; exact h)

theorem strLe_trans {a b c : String} (h1 : strLe a b = true)
    (h2 : strLe b c = true) : strLe a c = true :=
  charsLe_trans a.data b.data c.data h1 h2

theorem strLe_total (a b : String) : strLe a b = true ∨ strLe b a = true :=
  charsLe_total a.data b.data

theorem insertSorted_pairwise (x : String) (l : List String)
    (hl : l.Pairwise (fun a b => strLe a b = true)) :
    (insertSorted x l).Pairwise (fun a b => strLe a b = true) := by
  induction l with
  | nil => simp [insertSorted]
  | cons y ys ih =>
    rw [insertSorted]
    by_cases h : strLe x y = true
    · rw [if_pos h]
      refine List.Pairwise.cons ?_ hl
      intro z hz
      rcases List.mem_cons.mp hz with hz | hz
      · rw [hz]; exact h
      · exact strLe_trans h (List.rel_of_pairwise_cons hl hz)
    · rw [if_neg h]
      have hyx : strLe y x = true := by
        rcases strLe_total x y with h' | h'
        · exact absurd h' h
        · exact h'
      refine List.Pairwise.cons ?_ (ih (List.Pairwise.sublist (List.sublist_cons_self y ys) hl))
      intro z hz
      have hz' := (insertSorted_perm x ys).mem_iff.mp hz
      rcases List.mem_cons.mp hz' with hz' | hz'
      · rw [hz']; exact hyx
      · exact List.rel_of_pairwise_cons hl hz'

theorem sortStrings_pairwise (l : List String) :
    (sortStrings l).Pairwise (fun a b => strLe a b = true) := by
  induction l with
  | nil => simp [sortStrings]
  | cons x xs ih =>
    rw [sortStrings, List.foldr_cons]
    exact insertSorted_pairwise x (sortStrings xs) ih

theorem extract_sorted (repo_files : List String) :
    ∀ kv ∈ extract_gguf_files repo_files,
      kv.2.Pairwise (fun a b => strLe a b = true) := by
  intro kv hkv
  rw [extract_gguf_files, List.mem_map] at hkv
  obtain ⟨kv0, _, hkveq⟩ := hkv
  rw [← hkveq]
  exact sortStrings_pairwise kv0.2

/-- C2: for every listed `.gguf` file whose basename has a (greedy)
multipart decomposition, `extract_gguf_files` places it in the group
keyed captured-base + `.gguf`; every other listed `.gguf` file is keyed
by its bare basename; within each group the members are sorted ascending
by full path string; and the three-part set
`{m-00001-of-00003.gguf, m-00002-of-00003.gguf, m-00003-of-00003.gguf}`
yields a single group keyed `m.gguf` with members in ascending part
order. -/
theorem gguf_group_keys :
    (∀ (repo_files : List String) (f : String), f ∈ repo_files →
      pyEndsWith f ".gguf" = true →
      (∀ base, GreedyMpSpec (basename f).data base →
        ∃ ms, (String.mk base ++ ".gguf", ms) ∈ extract_gguf_files repo_files
          ∧ f ∈ ms)
      ∧ ((¬ ∃ base, MpSplitSpec (basename f).data base) →
        ∃ ms, (basename f, ms) ∈ extract_gguf_files repo_files ∧ f ∈ ms))
    ∧ (∀ (repo_files : List String), ∀ kv ∈ extract_gguf_files repo_files,
        kv.2.Pairwise (fun a b => strLe a b = true))
    ∧ extract_gguf_files ["m-00001-of-00003.gguf", "m-00002-of-00003.gguf",
        "m-00003-of-00003.gguf"]
      = [("m.gguf", ["m-00001-of-00003.gguf", "m-00002-of-00003.gguf",
          "m-00003-of-00003.gguf"])] := by
  refine ⟨fun repo_files f hf hgg => ⟨fun base hbase => ?_, fun hno => ?_⟩,
    extract_sorted, rfl⟩
  · rw [← groupKey_of_greedy f base hbase]
    exact extract_mem_group repo_files f hf hgg
  · rw [← groupKey_of_nomatch f hno]
    exact extract_mem_group repo_files f hf hgg

/-- Witness for `gguf_group_keys`: the single-file listing
`["single.gguf", "other.txt"]`, whose basename has no multipart
decomposition, is keyed by its bare filename. -/
theorem gguf_group_keys_witness :
    ("single.gguf" ∈ ["single.gguf", "other.txt"])
    ∧ pyEndsWith "single.gguf" ".gguf" = true
    ∧ (¬ ∃ base, MpSplitSpec (basename "single.gguf").data base)
    ∧ ∃ ms, (basename "single.gguf", ms)
        ∈ extract_gguf_files ["single.gguf", "other.txt"]
      ∧ "single.gguf" ∈ ms := by
  have hno : ¬ ∃ base, MpSplitSpec (basename "single.gguf").data base := by
    rintro ⟨b, hb⟩
    obtain ⟨t, ht, hsuf⟩ := suffix_of_mpSplitSpec hb
    rw [multipartBase_none (basename "single.gguf").data (by decide) b t ht]
      at hsuf
    exact Bool.noConfusion hsuf
  exact ⟨by decide, by decide, hno,
    (gguf_group_keys.1 ["single.gguf", "other.txt"] "single.gguf" (by decide)
      (by decide)).2 hno⟩

end NimLLab
